import Mathlib

/-!
# Verification of the Notomattic wiki-link subsystem

Shallow embedding of the wiki-link core of `src/src-tauri/src/lib.rs`:
the link parser (`parse_wiki_links` driven by the regex
`\[\[([^\]|]+)(?:\|([^\]]+))?\]\]`), the note-name slugifier
(`note_name_to_filename`), the resolver (`note_exists`), the context
extractor (`get_link_context`), and the backlink scan (`get_backlinks`).

Texts are modelled as `List Char`.  Rust's byte-indexed string operations
(`str::find`, `saturating_sub`, byte-range slicing) are modelled by
computing UTF-8 byte lengths of character prefixes; a byte-range slice
whose end points fall inside a multi-byte character is modelled as `none`
(the Rust code panics there).  Character classification (`to_lowercase`,
`is_alphanumeric`, whitespace trimming) is modelled with Lean's ASCII
`Char` operations, which agree with Rust's on ASCII input.
-/

namespace Notomattic

/-- Characters admitted inside the first capture group of the wiki-link
regex: anything except `]` and `|` (the class `[^\]|]`). -/
def g1char (c : Char) : Bool := c != ']' && c != '|'

/-- Characters admitted inside the second capture group of the wiki-link
regex: anything except `]` (the class `[^\]]`). -/
def g2char (c : Char) : Bool := c != ']'

/-- Attempt to match the regex `\[\[([^\]|]+)(?:\|([^\]]+))?\]\]` at the
head of the text, returning the extracted target (capture group 2 when the
pipe branch matched, otherwise capture group 1) together with the text
remaining after the match.  Greedy matching of the character classes never
needs backtracking here: a character given back by `[^\]|]+` can match
neither `|` nor `]`, and similarly for `[^\]]+`. -/
def matchAfterBrackets (rest : List Char) : Option (List Char × List Char) :=
  match rest.dropWhile g1char with
  | '|' :: r2 =>
    if (rest.takeWhile g1char).isEmpty then none
    else
      match r2.dropWhile g2char with
      | ']' :: ']' :: r4 =>
        if (r2.takeWhile g2char).isEmpty then none
        else some (r2.takeWhile g2char, r4)
      | _ => none
  | ']' :: ']' :: r2 =>
    if (rest.takeWhile g1char).isEmpty then none
    else some (rest.takeWhile g1char, r2)
  | _ => none

/-- Attempt a regex match starting exactly at the head of the text. -/
def matchWikiAt : List Char → Option (List Char × List Char)
  | '[' :: '[' :: rest => matchAfterBrackets rest
  | _ => none

/-- Left-to-right scan for non-overlapping leftmost matches, as performed
by `Regex::captures_iter`: try a match at every position, and after a
match resume immediately after it.  The fuel argument is instantiated with
the text length, which suffices because every step consumes at least one
character. -/
def scanAux : Nat → List Char → List (List Char)
  | 0, _ => []
  | _ + 1, [] => []
  | fuel + 1, c :: cs =>
    match matchWikiAt (c :: cs) with
    | some (tgt, rest) => tgt :: scanAux fuel rest
    | none => scanAux fuel cs

/-- `parse_wiki_links` from `lib.rs`: collect the targets of all wiki-link
matches.  The Rust source additionally filters out empty targets, but both
capture groups are `+`-quantified and hence never empty, so the filter
never removes anything and is omitted here (its vacuity is proved below). -/
def parse_wiki_links (content : List Char) : List (List Char) :=
  scanAux content.length content

/-- `note_name_to_filename` from `lib.rs`: lowercase, trim whitespace,
replace spaces with `-`, strip every character that is neither
alphanumeric nor `-`, and append `.md`. -/
def note_name_to_filename (note_name : List Char) : List Char :=
  let lowered := note_name.map Char.toLower
  let trimmed := ((lowered.dropWhile Char.isWhitespace).reverse.dropWhile
    Char.isWhitespace).reverse
  let dashed := trimmed.map fun c => if c = ' ' then '-' else c
  let slug := dashed.filter fun c => c.isAlphanum || c = '-'
  slug ++ ['.', 'm', 'd']

/-- The daily-note candidate filename in `note_exists`: the reference
itself when it already ends in `.md`, otherwise the reference with `.md`
appended. -/
def dailyCandidate (note_name : List Char) : List Char :=
  if List.isSuffixOf ['.', 'm', 'd'] note_name then note_name
  else note_name ++ ['.', 'm', 'd']

/-- `path.extension() == Some("md")` computed from the file name, with
Rust's `Path::extension` rules: the part after the last `.`, except that a
name with no `.`, or a name whose only `.` is its first character, has no
extension. -/
def hasMdExt (f : List Char) : Bool :=
  let r := f.reverse
  match r.dropWhile (fun c => c != '.') with
  | [] => false
  | _ :: pre => !pre.isEmpty && (r.takeWhile (fun c => c != '.')).reverse == ['m', 'd']

instance exceptDecEq {ε α : Type} [DecidableEq ε] [DecidableEq α] :
    DecidableEq (Except ε α)
  | Except.error a, Except.error b =>
    if h : a = b then isTrue (by rw [h])
    else isFalse (by intro he; cases he; exact h rfl)
  | Except.error _, Except.ok _ => isFalse (by intro h; cases h)
  | Except.ok _, Except.error _ => isFalse (by intro h; cases h)
  | Except.ok a, Except.ok b =>
    if h : a = b then isTrue (by rw [h])
    else isFalse (by intro he; cases he; exact h rfl)

/-- A directory entry as observed by the backlink scan: its file name,
whether it is a regular file (`path.is_file()`), and the outcome of
reading it (`fs::read_to_string`): the content, or the OS error text. -/
structure FileEntry where
  name : List Char
  isFile : Bool
  content : Except (List Char) (List Char)
deriving DecidableEq

/-- State of one of the two note directories: not yet created
(`!dir.exists()`), present but failing to enumerate (`fs::read_dir`
returns an OS error), or present with a list of entries. -/
inductive DirState
  | absent
  | unreadable (osErr : List Char)
  | readable (entries : List FileEntry)
deriving DecidableEq

/-- The note corpus on disk: the `daily` directory and the `notes`
(standalone) directory. -/
structure NoteFs where
  daily : DirState
  standalone : DirState
deriving DecidableEq

/-- `path.exists()` for a file name inside a directory.  A file inside an
absent directory does not exist; metadata of a file inside an unreadable
directory errors, which `Path::exists` reports as `false`. -/
def fileExistsIn : DirState → List Char → Bool
  | DirState.readable es, n => es.any fun e => e.name == n
  | _, _ => false

/-- `note_exists` from `lib.rs`: try the slugified standalone candidate
first, then the daily candidate; report `(false, slug)` when neither file
exists.  The Rust signature wraps this in `Result` but never returns the
error case. -/
def note_exists (fs : NoteFs) (note_name : List Char) : Bool × List Char :=
  let filename := note_name_to_filename note_name
  if fileExistsIn fs.standalone filename then (true, filename)
  else if fileExistsIn fs.daily (dailyCandidate note_name) then
    (true, dailyCandidate note_name)
  else (false, filename)

/-- UTF-8 byte length of a character list, matching `str::len`. -/
def utf8Len (l : List Char) : Nat := l.foldl (fun n c => n + c.utf8Size) 0

/-- Convert a byte offset into a character index when the offset falls on
a character boundary; `none` models Rust's "byte index is not a char
boundary" panic (offsets past the end are also not boundaries). -/
def byteToCharIdx : List Char → Nat → Option Nat
  | _, 0 => some 0
  | [], _ + 1 => none
  | c :: cs, n + 1 =>
    if n + 1 < c.utf8Size then none
    else (byteToCharIdx cs (n + 1 - c.utf8Size)).map (· + 1)

/-- Byte-range slicing `&content[a..b]`, `none` on any panic condition
(inverted range or an endpoint inside a multi-byte character). -/
def byteSlice (l : List Char) (a b : Nat) : Option (List Char) :=
  if b < a then none
  else
    match byteToCharIdx l a, byteToCharIdx l b with
    | some i, some j => some ((l.take j).drop i)
    | _, _ => none

/-- Character index of the first occurrence of `s` in `l`
(`str::find` reports the byte offset of the same occurrence: the search
strings used here all begin with an ASCII character, so every byte-level
occurrence starts on a character boundary). -/
def findSub : List Char → List Char → Option Nat
  | l, s =>
    match l with
    | [] => if s.isEmpty then some 0 else none
    | c :: cs =>
      if List.isPrefixOf s (c :: cs) then some 0
      else (findSub cs s).map (· + 1)

/-- The body of `get_link_context` once a search pattern has been found at
character index `i` of `content`: compute the byte window
`[pos - 50, match end + 50]` clamped to the text, slice it, and add `...`
on each truncated side.  For the pipe pattern the match end extends
through the closing `]]` when one is found.  `none` models the panic of
byte slicing at a non-boundary. -/
def contextAt (content search : List Char) (pipe : Bool) (i : Nat) :
    Option (List Char) :=
  let pos := utf8Len (content.take i)
  let clen := utf8Len content
  let e0 := min (pos + utf8Len search + 50) clen
  let actual_end :=
    if pipe then
      match findSub (content.drop i) [']', ']'] with
      | some j => min (pos + utf8Len ((content.drop i).take j) + 2 + 50) clen
      | none => e0
    else e0
  let start := pos - 50
  match byteSlice content start actual_end with
  | none => none
  | some ctx =>
    some ((if 0 < start then ['.', '.', '.'] else []) ++ ctx ++
      (if actual_end < clen then ['.', '.', '.'] else []))

/-- `get_link_context` from `lib.rs`: look for the literal `[[link]]`
first, then the literal `[[link|`; extract the surrounding context of the
first pattern found, or return the empty string when neither occurs.
`none` models a byte-boundary panic inside the extraction. -/
def get_link_context (content link_text : List Char) : Option (List Char) :=
  let s1 := '[' :: '[' :: link_text ++ [']', ']']
  let s2 := '[' :: '[' :: link_text ++ ['|']
  match findSub content s1 with
  | some i => contextAt content s1 false i
  | none =>
    match findSub content s2 with
    | some i => contextAt content s2 true i
    | none => some []

/-- Split a character list at every newline (the segments do not contain
`'\n'`; a trailing newline yields a trailing empty segment). -/
def splitNl : List Char → List (List Char)
  | [] => [[]]
  | c :: cs =>
    let r := splitNl cs
    if c = '\n' then [] :: r
    else
      match r with
      | [] => [[c]]
      | h :: t => (c :: h) :: t

/-- Drop a single trailing `'\r'` if present (applied by `str::lines` to
every segment that was terminated by a newline). -/
def stripCr (l : List Char) : List Char :=
  if l.getLast? = some '\r' then l.dropLast else l

/-- Apply `f` to every element except the last one. -/
def mapInit (f : List Char → List Char) : List (List Char) → List (List Char)
  | [] => []
  | [x] => [x]
  | x :: y :: t => f x :: mapInit f (y :: t)

/-- `str::lines`: split at `'\n'`, drop the optional final line ending,
and strip a `'\r'` preceding each `'\n'`. -/
def rustLines (s : List Char) : List (List Char) :=
  if s.isEmpty then []
  else if s.getLast? = some '\n' then ((splitNl s).dropLast).map stripCr
  else mapInit stripCr (splitNl s)

/-- `trim_start_matches("# ")`: repeatedly remove a leading `"# "`. -/
def trimStartHashAux : Nat → List Char → List Char
  | 0, l => l
  | n + 1, l =>
    if List.isPrefixOf ['#', ' '] l then trimStartHashAux n (l.drop 2) else l

/-- `trim_end_matches(".md")`: repeatedly remove a trailing `".md"`. -/
def trimEndMdAux : Nat → List Char → List Char
  | 0, l => l
  | n + 1, l =>
    if List.isSuffixOf ['.', 'm', 'd'] l then
      trimEndMdAux n (l.take (l.length - 3))
    else l

/-- The display title of a source note: the first line starting with
`"# "`, with the leading `"# "` repeatedly stripped; the file name when no
such line exists. -/
def noteTitle (content fromName : List Char) : List Char :=
  match (rustLines content).find? (fun l => List.isPrefixOf ['#', ' '] l) with
  | some l => trimStartHashAux l.length l
  | none => fromName

/-- One backlink record: source file name, its display title, and the
extracted context. -/
structure BacklinkInfo where
  from_note : List Char
  from_title : List Char
  context : List Char
deriving DecidableEq

/-- The inner loop of `get_backlinks` over the parsed outgoing references
of one source file: on the first reference whose resolved filename equals
the target filename, or whose raw text equals the target stem, emit one
record and stop.  The outer `Option` is the panic layer of the context
extraction; the inner `Option` distinguishes "no matching reference" from
an emitted record. -/
def backlinkOfEntry (fs : NoteFs) (filename noteName fromName content : List Char) :
    List (List Char) → Option (Option BacklinkInfo)
  | [] => some none
  | link :: rest =>
    if (note_exists fs link).2 == filename || link == noteName then
      match get_link_context content link with
      | none => none
      | some ctx => some (some ⟨fromName, noteTitle content fromName, ctx⟩)
    else backlinkOfEntry fs filename noteName fromName content rest

/-- The message built from a failing `fs::read_dir`. -/
def dirErrMsg (e : List Char) : List Char :=
  "Failed to read directory: ".data ++ e

/-- The message built from a failing `fs::read_to_string`. -/
def fileErrMsg (e : List Char) : List Char :=
  "Failed to read file: ".data ++ e

/-- Scan the entries of one readable directory: skip entries that are not
`.md` files and the target file itself; abort with an I/O error on the
first unreadable file; otherwise collect at most one record per entry. -/
def scanEntries (fs : NoteFs) (filename noteName : List Char) :
    List FileEntry → Option (Except (List Char) (List BacklinkInfo))
  | [] => some (Except.ok [])
  | ent :: rest =>
    if !(ent.isFile && hasMdExt ent.name) then
      scanEntries fs filename noteName rest
    else if ent.name == filename then scanEntries fs filename noteName rest
    else
      match ent.content with
      | Except.error e => some (Except.error (fileErrMsg e))
      | Except.ok content =>
        match backlinkOfEntry fs filename noteName ent.name content
            (parse_wiki_links content) with
        | none => none
        | some none => scanEntries fs filename noteName rest
        | some (some b) =>
          match scanEntries fs filename noteName rest with
          | none => none
          | some (Except.error e) => some (Except.error e)
          | some (Except.ok bs) => some (Except.ok (b :: bs))

/-- Scan one directory: an absent directory contributes nothing, an
unreadable one aborts with an I/O error, a readable one is scanned
entry by entry. -/
def scanDirState (fs : NoteFs) (filename noteName : List Char) :
    DirState → Option (Except (List Char) (List BacklinkInfo))
  | DirState.absent => some (Except.ok [])
  | DirState.unreadable e => some (Except.error (dirErrMsg e))
  | DirState.readable es => scanEntries fs filename noteName es

/-- `get_backlinks` from `lib.rs`: derive the target stem, scan the daily
directory then the standalone directory, concatenating the records; the
first I/O error (or panic, modelled `none`) aborts the whole scan. -/
def get_backlinks (fs : NoteFs) (filename : List Char) :
    Option (Except (List Char) (List BacklinkInfo)) :=
  let noteName := trimEndMdAux filename.length filename
  match scanDirState fs filename noteName fs.daily with
  | none => none
  | some (Except.error e) => some (Except.error e)
  | some (Except.ok l1) =>
    match scanDirState fs filename noteName fs.standalone with
    | none => none
    | some (Except.error e) => some (Except.error e)
    | some (Except.ok l2) => some (Except.ok (l1 ++ l2))

/-! ## Specification-side predicates

These follow the wording of the specification (extraction rule, link
grammar), to be related to the implementation above. -/

/-- The extraction rule as worded by the spec: the target of a match is
the text after the (first) `|` when a `|` is present, otherwise the
bracketed text itself. -/
def specExtract (inner : List Char) : List Char :=
  if '|' ∈ inner then (inner.dropWhile (fun c => c != '|')).tail else inner

/-- `w` is a bracketed link whose extracted target is `tgt`: `w` is
`[[inner]]` for some bracket contents `inner` that contain no `]`, and
the extraction rule applied to `inner` yields `tgt`. -/
def IsLinkWindow (w tgt : List Char) : Prop :=
  ∃ inner, w = '[' :: '[' :: (inner ++ [']', ']']) ∧ ']' ∉ inner ∧
    specExtract inner = tgt

/-- `LinkDecomp t tgts` witnesses that the text `t` splits, left to right,
into alternating gaps and disjoint bracketed links whose extracted targets
are exactly `tgts` in order (duplicates preserved). -/
inductive LinkDecomp : List Char → List (List Char) → Prop
  | nil (t : List Char) : LinkDecomp t []
  | cons (gap w r : List Char) (tgt : List Char) (tgts : List (List Char)) :
      IsLinkWindow w tgt → LinkDecomp r tgts →
      LinkDecomp (gap ++ w ++ r) (tgt :: tgts)

/-- `w` is a link exactly of the shape accepted by the implementation's
regex: `[[g1]]` or `[[g1|g2]]` with `g1` a nonempty run avoiding `]` and
`|`, and `g2` a nonempty run avoiding `]`; `tgt` is the matched target. -/
def IsCodeWindow (w tgt : List Char) : Prop :=
  (∃ g1, g1 ≠ [] ∧ (∀ c ∈ g1, g1char c = true) ∧
    w = '[' :: '[' :: (g1 ++ [']', ']']) ∧ tgt = g1) ∨
  (∃ g1 g2, g1 ≠ [] ∧ g2 ≠ [] ∧ (∀ c ∈ g1, g1char c = true) ∧
    (∀ c ∈ g2, g2char c = true) ∧
    w = '[' :: '[' :: (g1 ++ '|' :: (g2 ++ [']', ']'])) ∧ tgt = g2)

/-- The names of the `.md` regular files among a list of directory
entries, in enumeration order. -/
def entryMdNames (es : List FileEntry) : List (List Char) :=
  (es.filter fun e => e.isFile && hasMdExt e.name).map FileEntry.name

/-- The names of the `.md` regular files a directory contributes to the
backlink scan. -/
def mdNames : DirState → List (List Char)
  | DirState.readable es => entryMdNames es
  | _ => []

/-! ## Concrete scenarios -/

/-- The end-to-end scenario: `notes/` holds only `project-plan.md` with
body `# Project Plan\nSee [[Daily Log]] for details.`, `daily/` holds only
an empty `2024-01-01.md`. -/
def fsScenario : NoteFs :=
  { daily := DirState.readable [⟨"2024-01-01.md".data, true, Except.ok []⟩]
  , standalone := DirState.readable
      [⟨"project-plan.md".data, true,
        Except.ok "# Project Plan\nSee [[Daily Log]] for details.".data⟩] }

/-- Context-extractor input whose match is preceded by 25 two-byte
characters and one ASCII character: the 50-byte backward window starts
at byte offset 1, inside the first character. -/
def multibyteContent : List Char := List.replicate 25 'é' ++ "x[[a]]".data

/-- A corpus whose daily directory fails to enumerate with a plain OS
error text. -/
def fsBadDaily : NoteFs :=
  { daily := DirState.unreadable "Permission denied (os error 13)".data
  , standalone := DirState.readable [] }

/-- A corpus with a single source note that links to the target `t.md`
three times. -/
def fsTriple : NoteFs :=
  { daily := DirState.absent
  , standalone := DirState.readable
      [⟨"src.md".data, true, Except.ok "[[T]] x [[T]] y [[T]]".data⟩] }

/-- A corpus whose only note links to itself. -/
def fsSelf : NoteFs :=
  { daily := DirState.absent
  , standalone := DirState.readable
      [⟨"self.md".data, true, Except.ok "x [[Self]] y".data⟩] }

/-- A corpus whose only note references `b.md` solely through the pipe
form `[[Display|b]]`. -/
def fsPipeOnly : NoteFs :=
  { daily := DirState.absent
  , standalone := DirState.readable
      [⟨"a.md".data, true, Except.ok "x [[Display|b]] y".data⟩] }

/-- A corpus with a single other note linking `[[T]]`, used to exhibit a
nonempty backlink list. -/
def fsOther : NoteFs :=
  { daily := DirState.absent
  , standalone := DirState.readable
      [⟨"other.md".data, true, Except.ok "[[T]]".data⟩] }

/-- A corpus where both directories contain `foo.md`. -/
def fsBoth : NoteFs :=
  { daily := DirState.readable [⟨"foo.md".data, true, Except.ok []⟩]
  , standalone := DirState.readable [⟨"foo.md".data, true, Except.ok []⟩] }

/-- The empty corpus: neither directory has been created. -/
def fsEmpty : NoteFs := ⟨DirState.absent, DirState.absent⟩

/-! ## Parser lemmas -/

theorem dropWhile_reach_pipe {g1 g2 : List Char}
    (h : ∀ c ∈ g1, (c != '|') = true) :
    List.dropWhile (fun c => c != '|') (g1 ++ '|' :: g2) = '|' :: g2 := by
  induction g1 with
  | nil => simp [List.dropWhile_cons]
  | cons c cs ih =>
    have hc := h c (by simp)
    simp only [List.cons_append, List.dropWhile_cons, hc, if_pos]
    exact ih fun x hx => h x (by simp [hx])

theorem takeWhile_append_stop {p : Char → Bool} :
    ∀ {l1 : List Char} {c0 : Char} {l2 : List Char},
    (∀ c ∈ l1, p c = true) → p c0 = false →
    (l1 ++ c0 :: l2).takeWhile p = l1 ∧ (l1 ++ c0 :: l2).dropWhile p = c0 :: l2 := by
  intro l1
  induction l1 with
  | nil =>
    intro c0 l2 _ hc0
    simp [List.takeWhile_cons, List.dropWhile_cons, hc0]
  | cons c cs ih =>
    intro c0 l2 h hc0
    have hc := h c (by simp)
    have hih := @ih c0 l2 (fun x hx => h x (by simp [hx])) hc0
    simp [List.cons_append, List.takeWhile_cons, List.dropWhile_cons, hc,
      hih.1, hih.2]

/-- Inversion of a successful regex match after the opening brackets: the
consumed text is a bracketed link in the sense of the spec, the extracted
target obeys the spec's extraction rule and is nonempty, and the match
consumes a prefix. -/
theorem matchAfterBrackets_split {rest tgt r : List Char}
    (h : matchAfterBrackets rest = some (tgt, r)) :
    ∃ w, IsLinkWindow w tgt ∧ tgt ≠ [] ∧ '[' :: '[' :: rest = w ++ r := by
  unfold matchAfterBrackets at h
  split at h
  next r2 heq =>
    split at h
    · exact absurd h (by simp)
    next hg1 =>
      split at h
      next r4 heq2 =>
        split at h
        · exact absurd h (by simp)
        next hg2 =>
          rw [Option.some.injEq, Prod.mk.injEq] at h
          obtain ⟨htgt, hr⟩ := h
          subst htgt
          subst hr
          set g1 := rest.takeWhile g1char with hg1def
          set g2 := r2.takeWhile g2char with hg2def
          have hrest : g1 ++ '|' :: r2 = rest := by
            conv_rhs => rw [← List.takeWhile_append_dropWhile g1char rest]
            rw [heq]
          have hr2 : g2 ++ ']' :: ']' :: r4 = r2 := by
            conv_rhs => rw [← List.takeWhile_append_dropWhile g2char r2]
            rw [heq2]
          refine ⟨'[' :: '[' :: ((g1 ++ '|' :: g2) ++ [']', ']']),
            ⟨g1 ++ '|' :: g2, rfl, ?_, ?_⟩, ?_, ?_⟩
          · intro hmem
            rcases List.mem_append.1 hmem with h1 | h1
            · have h2 := List.mem_takeWhile_imp h1
              simp [g1char] at h2
            · rcases List.mem_cons.1 h1 with h2 | h2
              · exact absurd h2 (by decide)
              · have h3 := List.mem_takeWhile_imp h2
                simp [g2char] at h3
          · unfold specExtract
            rw [if_pos (by simp), dropWhile_reach_pipe (fun c hc => by
              have h2 := List.mem_takeWhile_imp hc
              simp only [g1char, Bool.and_eq_true] at h2
              exact h2.2)]
            rfl
          · intro hnil
            rw [hnil] at hg2
            simp at hg2
          · conv_lhs => rw [← hrest, ← hr2]
            simp
      next hne1 hne2 =>
        exact absurd h (by simp)
  next r2 heq =>
    split at h
    · exact absurd h (by simp)
    next hg1 =>
      rw [Option.some.injEq, Prod.mk.injEq] at h
      obtain ⟨htgt, hr⟩ := h
      subst htgt
      subst hr
      set g1 := rest.takeWhile g1char with hg1def
      have hrest : g1 ++ ']' :: ']' :: r2 = rest := by
        conv_rhs => rw [← List.takeWhile_append_dropWhile g1char rest]
        rw [heq]
      refine ⟨'[' :: '[' :: (g1 ++ [']', ']']), ⟨g1, rfl, ?_, ?_⟩, ?_, ?_⟩
      · intro hmem
        have h2 := List.mem_takeWhile_imp hmem
        simp [g1char] at h2
      · unfold specExtract
        rw [if_neg]
        intro hmem
        have h2 := List.mem_takeWhile_imp hmem
        simp [g1char] at h2
      · intro hnil
        rw [hnil] at hg1
        simp at hg1
      · conv_lhs => rw [← hrest]
        simp
  next hne1 hne2 =>
    exact absurd h (by simp)

/-- Inversion of a successful match attempt: `matchWikiAt` consumes a
bracketed link prefix whose extracted target is the returned one. -/
theorem matchWikiAt_split {l tgt r : List Char}
    (h : matchWikiAt l = some (tgt, r)) :
    ∃ w, IsLinkWindow w tgt ∧ tgt ≠ [] ∧ l = w ++ r := by
  rw [matchWikiAt.eq_def] at h
  split at h
  · exact matchAfterBrackets_split h
  · exact absurd h (by simp)

/-- A decomposition of a text extends to a decomposition of the text with
one more leading character, absorbed into the first gap. -/
theorem LinkDecomp.consChar {l : List Char} {ts : List (List Char)}
    (c : Char) (h : LinkDecomp l ts) : LinkDecomp (c :: l) ts := by
  cases h with
  | nil t => exact LinkDecomp.nil _
  | cons gap w r tgt tgts hw hd =>
    have heq : c :: (gap ++ w ++ r) = (c :: gap) ++ w ++ r := by simp
    rw [heq]
    exact LinkDecomp.cons _ _ _ _ _ hw hd

/-! ### Scanner lemmas -/

theorem scanAux_decomp (fuel : Nat) : ∀ t : List Char, t.length ≤ fuel →
    LinkDecomp t (scanAux fuel t) := by
  induction fuel with
  | zero =>
    intro t ht
    rw [scanAux]
    exact LinkDecomp.nil t
  | succ n ih =>
    intro t ht
    cases t with
    | nil =>
      rw [scanAux]
      exact LinkDecomp.nil []
    | cons c cs =>
      rw [scanAux]
      cases hm : matchWikiAt (c :: cs) with
      | none =>
        simp only [hm]
        exact LinkDecomp.consChar c (ih cs (by simpa using Nat.le_of_succ_le_succ ht))
      | some p =>
        obtain ⟨tgt, rest⟩ := p
        obtain ⟨w, hw, hne, heq⟩ := matchWikiAt_split hm
        have hw1 : w ≠ [] := by
          rcases hw with ⟨inner, hwe, _, _⟩
          rw [hwe]
          simp
        have hlen : cs.length + 1 = w.length + rest.length := by
          have := congrArg List.length heq
          simpa using this
        have hrest : rest.length ≤ n := by
          have h1 : 0 < w.length := List.length_pos.2 hw1
          have h2 : cs.length + 1 ≤ n + 1 := by simpa using ht
          omega
        simp only [hm]
        rw [heq]
        have hd := LinkDecomp.cons [] w rest tgt (scanAux n rest) hw (ih rest hrest)
        simpa using hd

theorem scanAux_all_nonempty (fuel : Nat) :
    ∀ t : List Char, (scanAux fuel t).all (fun tgt => !tgt.isEmpty) = true := by
  induction fuel with
  | zero => intro t; rw [scanAux]; rfl
  | succ n ih =>
    intro t
    cases t with
    | nil => rw [scanAux]; rfl
    | cons c cs =>
      rw [scanAux]
      cases hm : matchWikiAt (c :: cs) with
      | none =>
        simp only [hm]
        exact ih cs
      | some p =>
        obtain ⟨tgt, rest⟩ := p
        obtain ⟨w, hw, hne, heq⟩ := matchWikiAt_split hm
        simp only [hm, List.all_cons, Bool.and_eq_true]
        refine ⟨?_, ih rest⟩
        obtain ⟨a, as, hcons⟩ := List.exists_cons_of_ne_nil hne
        rw [hcons]
        rfl

theorem scanAux_nil_no_match (fuel : Nat) :
    ∀ t : List Char, t.length ≤ fuel → scanAux fuel t = [] →
    ∀ n, matchWikiAt (t.drop n) = none := by
  induction fuel with
  | zero =>
    intro t ht _ n
    have hε : t = [] := List.eq_nil_of_length_eq_zero (Nat.le_zero.1 ht)
    subst hε
    rw [List.drop_nil]
    rfl
  | succ m ih =>
    intro t ht hs n
    cases t with
    | nil =>
      rw [List.drop_nil]
      rfl
    | cons c cs =>
      rw [scanAux] at hs
      cases hm : matchWikiAt (c :: cs) with
      | some p =>
        obtain ⟨tgt, rest⟩ := p
        simp only [hm] at hs
        cases hs
      | none =>
        simp only [hm] at hs
        cases n with
        | zero => simpa using hm
        | succ k =>
          rw [List.drop_succ_cons]
          exact ih cs (by simpa using Nat.le_of_succ_le_succ ht) hs k

theorem matchWikiAt_code_window {w tgt : List Char} (hw : IsCodeWindow w tgt)
    (s : List Char) : matchWikiAt (w ++ s) = some (tgt, s) := by
  rcases hw with ⟨g1, hne, hall, hwe, htgt⟩ |
    ⟨g1, g2, hne1, hne2, hall1, hall2, hwe, htgt⟩
  · subst hwe
    rw [htgt]
    have hshape : ('[' :: '[' :: (g1 ++ [']', ']'])) ++ s =
        '[' :: '[' :: (g1 ++ ']' :: ']' :: s) := by simp
    rw [hshape, matchWikiAt]
    obtain ⟨ht, hd⟩ := takeWhile_append_stop hall (by decide : g1char ']' = false)
    unfold matchAfterBrackets
    rw [hd, ht]
    have hie : g1.isEmpty = false := by
      cases g1 with
      | nil => exact absurd rfl hne
      | cons a as => rfl
    rw [hie]
    rfl
  · subst hwe
    rw [htgt]
    have hshape : ('[' :: '[' :: (g1 ++ '|' :: (g2 ++ [']', ']']))) ++ s =
        '[' :: '[' :: (g1 ++ '|' :: (g2 ++ ']' :: ']' :: s)) := by simp
    rw [hshape, matchWikiAt]
    obtain ⟨ht1, hd1⟩ :=
      @takeWhile_append_stop g1char g1 '|' (g2 ++ ']' :: ']' :: s) hall1 (by decide)
    obtain ⟨ht2, hd2⟩ :=
      @takeWhile_append_stop g2char g2 ']' (']' :: s) hall2 (by decide)
    have hie1 : g1.isEmpty = false := by
      cases g1 with
      | nil => exact absurd rfl hne1
      | cons a as => rfl
    have hie2 : g2.isEmpty = false := by
      cases g2 with
      | nil => exact absurd rfl hne2
      | cons a as => rfl
    unfold matchAfterBrackets
    simp [hd1, ht1, hd2, ht2, hie1, hie2]

theorem parse_nonnil_of_window {t w tgt u v : List Char}
    (hw : IsCodeWindow w tgt) (ht : t = u ++ w ++ v) :
    parse_wiki_links t ≠ [] := by
  intro hnil
  unfold parse_wiki_links at hnil
  have hno := scanAux_nil_no_match t.length t le_rfl hnil u.length
  rw [ht, List.append_assoc, List.drop_left, matchWikiAt_code_window hw v] at hno
  cases hno

/-! ### Backlink scan lemmas -/

theorem backlinkOfEntry_emit {fs : NoteFs}
    {filename noteName fromName content : List Char} :
    ∀ {links : List (List Char)} {b : BacklinkInfo},
    backlinkOfEntry fs filename noteName fromName content links =
      some (some b) →
    b.from_note = fromName := by
  intro links
  induction links with
  | nil =>
    intro b h
    rw [backlinkOfEntry] at h
    simp at h
  | cons link rest ih =>
    intro b h
    rw [backlinkOfEntry] at h
    split at h
    · split at h
      · exact absurd h (by simp)
      next ctx hctx =>
        rw [Option.some.injEq, Option.some.injEq] at h
        rw [← h]
    · exact ih h

theorem scanEntries_ok_props (fs : NoteFs) (filename noteName : List Char) :
    ∀ (es : List FileEntry) (bs : List BacklinkInfo),
    scanEntries fs filename noteName es = some (Except.ok bs) →
    List.Sublist (bs.map BacklinkInfo.from_note) (entryMdNames es) ∧
    ∀ b ∈ bs, b.from_note ≠ filename := by
  intro es
  induction es with
  | nil =>
    intro bs h
    rw [scanEntries, Option.some.injEq, Except.ok.injEq] at h
    subst h
    exact ⟨List.nil_sublist _, by simp⟩
  | cons ent rest ih =>
    intro bs h
    rw [scanEntries] at h
    split at h
    next hskip =>
      have hmd : (ent.isFile && hasMdExt ent.name) = false := by
        revert hskip
        cases ent.isFile && hasMdExt ent.name <;> simp
      obtain ⟨h1, h2⟩ := ih bs h
      refine ⟨?_, h2⟩
      unfold entryMdNames
      rw [List.filter_cons, if_neg (by simp [hmd])]
      exact h1
    next hkeep =>
      have hmd : (ent.isFile && hasMdExt ent.name) = true := by
        revert hkeep
        cases ent.isFile && hasMdExt ent.name <;> simp
      have hnames : entryMdNames (ent :: rest) = ent.name :: entryMdNames rest := by
        unfold entryMdNames
        rw [List.filter_cons, if_pos (by simp [hmd])]
        rfl
      split at h
      next hself =>
        obtain ⟨h1, h2⟩ := ih bs h
        rw [hnames]
        exact ⟨List.Sublist.cons _ h1, h2⟩
      next hnself =>
        have hne : ent.name ≠ filename := by
          intro he
          simp [he] at hnself
        split at h
        next e hcont =>
          exact absurd h (by simp)
        next content hcont =>
          split at h
          next hb => exact absurd h (by simp)
          next hb =>
            obtain ⟨h1, h2⟩ := ih bs h
            rw [hnames]
            exact ⟨List.Sublist.cons _ h1, h2⟩
          next b hb =>
            split at h
            next hr => exact absurd h (by simp)
            next e hr => exact absurd h (by simp)
            next bs2 hr =>
              rw [Option.some.injEq, Except.ok.injEq] at h
              subst h
              obtain ⟨h1, h2⟩ := ih bs2 hr
              have hfrom : b.from_note = ent.name := backlinkOfEntry_emit hb
              constructor
              · rw [hnames, List.map_cons, hfrom]
                exact List.Sublist.cons₂ _ h1
              · intro b2 hmem
                rcases List.mem_cons.1 hmem with h3 | h3
                · rw [h3, hfrom]
                  exact hne
                · exact h2 b2 h3

theorem scanDirState_ok_props (fs : NoteFs) (filename noteName : List Char)
    (d : DirState) (l : List BacklinkInfo)
    (h : scanDirState fs filename noteName d = some (Except.ok l)) :
    List.Sublist (l.map BacklinkInfo.from_note) (mdNames d) ∧
    ∀ b ∈ l, b.from_note ≠ filename := by
  cases d with
  | absent =>
    rw [scanDirState, Option.some.injEq, Except.ok.injEq] at h
    subst h
    exact ⟨List.nil_sublist _, by simp⟩
  | unreadable e =>
    rw [scanDirState] at h
    exact absurd h (by simp)
  | readable es =>
    rw [scanDirState] at h
    exact scanEntries_ok_props fs filename noteName es l h

theorem get_backlinks_ok_props (fs : NoteFs) (filename : List Char)
    (bs : List BacklinkInfo)
    (h : get_backlinks fs filename = some (Except.ok bs)) :
    List.Sublist (bs.map BacklinkInfo.from_note)
      (mdNames fs.daily ++ mdNames fs.standalone) ∧
    ∀ b ∈ bs, b.from_note ≠ filename := by
  unfold get_backlinks at h
  dsimp only at h
  split at h
  · exact absurd h (by simp)
  · exact absurd h (by simp)
  next l1 h1 =>
    split at h
    · exact absurd h (by simp)
    · exact absurd h (by simp)
    next l2 h2 =>
      rw [Option.some.injEq, Except.ok.injEq] at h
      subst h
      obtain ⟨ha1, ha2⟩ := scanDirState_ok_props fs filename _ fs.daily l1 h1
      obtain ⟨hb1, hb2⟩ := scanDirState_ok_props fs filename _ fs.standalone l2 h2
      constructor
      · rw [List.map_append]
        exact List.Sublist.append ha1 hb1
      · intro b hmem
        rcases List.mem_append.1 hmem with h3 | h3
        · exact ha2 b h3
        · exact hb2 b h3

/-! ## Claim theorems -/

/-- C1 (counterexample): in the end-to-end scenario, `get_backlinks
"daily-log.md"` does return exactly one record with the claimed source and
title, but its context is the entire note body with no ellipses — the
match sits within 50 bytes of both ends of the file — and not the claimed
`...See [[Daily Log]] for details....`. -/
theorem scenario_context_counterexample :
    get_backlinks fsScenario "daily-log.md".data =
      some (Except.ok [⟨"project-plan.md".data, "Project Plan".data,
        "# Project Plan\nSee [[Daily Log]] for details.".data⟩]) ∧
    "# Project Plan\nSee [[Daily Log]] for details.".data ≠
      "...See [[Daily Log]] for details....".data :=
  ⟨rfl, by decide⟩

/-- C1 (amended): in the end-to-end scenario, `get_backlinks
"daily-log.md"` returns exactly one `BacklinkInfo` with `fromNote`
`project-plan.md`, `fromTitle` `Project Plan`, and context equal to the
whole body `# Project Plan\nSee [[Daily Log]] for details.` without
ellipses. -/
theorem scenario_single_backlink :
    get_backlinks fsScenario "daily-log.md".data =
      some (Except.ok [⟨"project-plan.md".data, "Project Plan".data,
        "# Project Plan\nSee [[Daily Log]] for details.".data⟩]) :=
  rfl

/-- C2: the context extractor is not total: on a text of 25 two-byte
characters followed by `x[[a]]`, looking up reference `a` puts the match
at byte 51, so the backward window starts at byte 1, inside the first
character, and the byte-range slice aborts (Rust panics with "byte index 1
is not a char boundary"). -/
theorem link_context_aborts_on_multibyte :
    get_link_context multibyteContent ['a'] = none :=
  rfl

/-- C3 (counterexample): when enumerating the daily directory fails with
the OS error text `Permission denied (os error 13)`, the scan aborts with
`Failed to read directory: Permission denied (os error 13)` — a message
that contains the OS error text but names no path: neither `daily` nor
`Notomattic` occurs in it. -/
theorem scan_error_names_no_path :
    get_backlinks fsBadDaily "x.md".data =
      some (Except.error
        "Failed to read directory: Permission denied (os error 13)".data) ∧
    findSub "Failed to read directory: Permission denied (os error 13)".data
      "daily".data = none ∧
    findSub "Failed to read directory: Permission denied (os error 13)".data
      "Notomattic".data = none :=
  ⟨rfl, by decide, by decide⟩

/-- C4: the parser emits, left to right with duplicates preserved, the
targets of disjoint bracketed links, each extracted by the spec's rule
(text after the `|` when one is present, otherwise the bracketed text):
the concrete example holds, every parse output decomposes the input text
accordingly (soundness and order), and a text containing any link of the
implemented grammar parses to a nonempty list (no link is missed
entirely). -/
theorem parse_order_and_extraction :
    parse_wiki_links "[[A]] and [[B|c-d]]".data = ["A".data, "c-d".data] ∧
    (∀ t : List Char, LinkDecomp t (parse_wiki_links t)) ∧
    (∀ t w tgt u v : List Char, IsCodeWindow w tgt → t = u ++ w ++ v →
      parse_wiki_links t ≠ []) :=
  ⟨rfl, fun t => scanAux_decomp t.length t le_rfl,
    fun _ _ _ _ _ hw ht => parse_nonnil_of_window hw ht⟩

/-- C4 (witness): the completeness conjunct applied to the one-link text
`[[A]]`. -/
theorem parse_order_and_extraction_w :
    parse_wiki_links "[[A]]".data ≠ [] :=
  parse_order_and_extraction.2.2 "[[A]]".data "[[A]]".data "A".data [] []
    (Or.inl ⟨"A".data, by decide, by decide, rfl, rfl⟩) rfl

/-- C5: the parser never emits an empty target — every emitted target is
nonempty — and in particular `[[]]`, `[[|]]` and the unterminated `[[foo`
produce no entry at all. -/
theorem parse_never_emits_empty_target :
    (∀ t : List Char,
      (parse_wiki_links t).all (fun tgt => !tgt.isEmpty) = true) ∧
    parse_wiki_links "[[]]".data = [] ∧
    parse_wiki_links "[[|]]".data = [] ∧
    parse_wiki_links "[[foo".data = [] :=
  ⟨fun t => scanAux_all_nonempty t.length t, rfl, rfl, rfl⟩

/-- C6: the resolver tries the standalone slug candidate first — whenever
the slugified standalone file exists, it is returned with `exists = true`
regardless of the daily directory — and in particular with `foo.md`
present in both directories, `resolve "foo"` returns the standalone match
`(true, "foo.md")`. -/
theorem resolver_standalone_precedence :
    (∀ (fs : NoteFs) (ref : List Char),
      fileExistsIn fs.standalone (note_name_to_filename ref) = true →
      note_exists fs ref = (true, note_name_to_filename ref)) ∧
    note_exists fsBoth "foo".data = (true, "foo.md".data) :=
  ⟨fun fs ref h => by simp [note_exists, h], rfl⟩

/-- C6 (witness): the precedence conjunct applied to the corpus with
`foo.md` in both directories. -/
theorem resolver_standalone_precedence_w :
    note_exists fsBoth "foo".data = (true, note_name_to_filename "foo".data) :=
  resolver_standalone_precedence.1 fsBoth "foo".data rfl

/-- C7: when neither the standalone slug candidate nor the daily candidate
exists, the resolver returns `(false, slug ++ ".md")` with the slug
computed by lowercasing, trimming, dashing spaces and stripping
non-alphanumeric-non-dash characters; in particular the slug of
`Nonexistent Note` is `nonexistent-note.md` and that of `Hello, World!`
(the standalone file the resolver checks) is `hello-world.md`. -/
theorem resolver_fallback_slug :
    (∀ (fs : NoteFs) (ref : List Char),
      fileExistsIn fs.standalone (note_name_to_filename ref) = false →
      fileExistsIn fs.daily (dailyCandidate ref) = false →
      note_exists fs ref = (false, note_name_to_filename ref)) ∧
    note_name_to_filename "Nonexistent Note".data = "nonexistent-note.md".data ∧
    note_name_to_filename "Hello, World!".data = "hello-world.md".data :=
  ⟨fun fs ref h1 h2 => by simp [note_exists, h1, h2], rfl, rfl⟩

/-- C7 (witness): the fallback conjunct applied to the empty corpus and
the reference `Nonexistent Note`. -/
theorem resolver_fallback_slug_w :
    note_exists fsEmpty "Nonexistent Note".data =
      (false, note_name_to_filename "Nonexistent Note".data) :=
  resolver_fallback_slug.1 fsEmpty "Nonexistent Note".data rfl rfl

/-- C10: the context extractor searches only for the literals
`[[target]]` and `[[target|`; when neither occurs in the source text it
returns the empty string, so a source that references the target only in
the pipe form `[[Display|target]]` yields a backlink record with an empty
context, as the concrete pipe-only corpus shows. -/
theorem pipe_only_reference_empty_context :
    (∀ content link_text : List Char,
      findSub content ('[' :: '[' :: link_text ++ [']', ']']) = none →
      findSub content ('[' :: '[' :: link_text ++ ['|']) = none →
      get_link_context content link_text = some []) ∧
    get_backlinks fsPipeOnly "b.md".data =
      some (Except.ok [⟨"a.md".data, "a.md".data, []⟩]) :=
  ⟨fun content lt h1 h2 => by
    unfold get_link_context
    dsimp only
    rw [h1, h2], rfl⟩

/-- C10 (witness): the extractor conjunct applied to a text containing
neither literal pattern. -/
theorem pipe_only_reference_empty_context_w :
    get_link_context "hello".data "b".data = some [] :=
  pipe_only_reference_empty_context.1 "hello".data "b".data rfl rfl

/-- C8: for every corpus and target, the source names of the emitted
records form a sublist of the `.md` file names enumerated by the scan, so
each source file yields at most one record; and concretely a source
linking the target three times produces exactly one record. -/
theorem backlinks_at_most_one_per_source :
    (∀ (fs : NoteFs) (filename : List Char) (bs : List BacklinkInfo),
      get_backlinks fs filename = some (Except.ok bs) →
      List.Sublist (bs.map BacklinkInfo.from_note)
        (mdNames fs.daily ++ mdNames fs.standalone)) ∧
    get_backlinks fsTriple "t.md".data =
      some (Except.ok
        [⟨"src.md".data, "src.md".data, "[[T]] x [[T]] y [[T]]".data⟩]) :=
  ⟨fun fs f bs h => (get_backlinks_ok_props fs f bs h).1, rfl⟩

/-- C8 (witness): the sublist conjunct applied to the triple-link
corpus. -/
theorem backlinks_at_most_one_per_source_w :
    List.Sublist ["src.md".data]
      (mdNames fsTriple.daily ++ mdNames fsTriple.standalone) :=
  backlinks_at_most_one_per_source.1 fsTriple "t.md".data
    [⟨"src.md".data, "src.md".data, "[[T]] x [[T]] y [[T]]".data⟩] rfl

/-- C9: the target file itself is excluded from the scan — no emitted
record names the target as its source — and concretely a note whose only
link resolves to itself gets an empty backlink list. -/
theorem backlinks_exclude_self :
    (∀ (fs : NoteFs) (filename : List Char) (bs : List BacklinkInfo),
      get_backlinks fs filename = some (Except.ok bs) →
      ∀ b ∈ bs, b.from_note ≠ filename) ∧
    get_backlinks fsSelf "self.md".data = some (Except.ok []) :=
  ⟨fun fs f bs h => (get_backlinks_ok_props fs f bs h).2, rfl⟩

/-- C9 (witness): the exclusion conjunct applied to a corpus with one
backlink record. -/
theorem backlinks_exclude_self_w :
    ("other.md".data : List Char) ≠ "t.md".data :=
  backlinks_exclude_self.1 fsOther "t.md".data
    [⟨"other.md".data, "other.md".data, "[[T]]".data⟩] rfl
    ⟨"other.md".data, "other.md".data, "[[T]]".data⟩ (by simp)

/-- C3 (amended): an unreadable daily directory aborts the whole scan
immediately with `Failed to read directory: ` followed by the OS error
text; an unreadable standalone directory does the same once the daily
directory scanned cleanly; an unreadable `.md` file aborts the directory
scan immediately with `Failed to read file: ` followed by the OS error
text, ignoring the remaining entries; and an absent directory is treated
exactly like an empty directory, contributing no error and no records. -/
theorem scan_failure_semantics :
    (∀ (fs : NoteFs) (f e : List Char), fs.daily = DirState.unreadable e →
      get_backlinks fs f = some (Except.error (dirErrMsg e))) ∧
    (∀ (fs : NoteFs) (f e : List Char) (l : List BacklinkInfo),
      fs.standalone = DirState.unreadable e →
      scanDirState fs f (trimEndMdAux f.length f) fs.daily =
        some (Except.ok l) →
      get_backlinks fs f = some (Except.error (dirErrMsg e))) ∧
    (∀ (fs : NoteFs) (f nn n e : List Char) (rest : List FileEntry),
      hasMdExt n = true → (n == f) = false →
      scanEntries fs f nn (⟨n, true, Except.error e⟩ :: rest) =
        some (Except.error (fileErrMsg e))) ∧
    (∀ (fs : NoteFs) (f nn : List Char),
      scanDirState fs f nn DirState.absent =
        scanDirState fs f nn (DirState.readable []) ∧
      scanDirState fs f nn DirState.absent = some (Except.ok [])) := by
  refine ⟨?_, ?_, ?_, fun fs f nn => ⟨rfl, rfl⟩⟩
  · intro fs f e h
    unfold get_backlinks
    dsimp only
    rw [h]
    rfl
  · intro fs f e l h1 h2
    unfold get_backlinks
    dsimp only
    rw [h2, h1]
    rfl
  · intro fs f nn n e rest h1 h2
    rw [scanEntries]
    simp [h1, h2]

/-- C3 (amended, witness): the daily-directory conjunct applied to the
concrete unreadable corpus. -/
theorem scan_failure_semantics_w :
    get_backlinks fsBadDaily "x.md".data =
      some (Except.error
        (dirErrMsg "Permission denied (os error 13)".data)) :=
  scan_failure_semantics.1 fsBadDaily "x.md".data
    "Permission denied (os error 13)".data rfl

end Notomattic
